import Mathlib

/-!
Verification of the file-name extraction engine of the Scrapper-Tool
repository (`src/lib/fileNameExtractor.ts` and the batch merge in
`src/app/api/analyze-batch/route.ts`).

The JavaScript code is shallowly embedded: strings are `List Char`
(wrapped in `String` at the interfaces), the insertion-ordered `Map`
and `Set` are association lists, and the fixed regular expressions of
the source are specialised backtracking matchers that follow the
JS regex semantics (ordered alternation, greedy quantifiers with
backtracking, global `exec` restarting at the end of the previous
match).
-/

namespace Scrapper

/-- The JS `\s` class, restricted to the characters that can occur here
(ASCII whitespace plus NBSP); used both by the tokenizing regex and by
`String.prototype.trim`. -/
def isSpaceChar (c : Char) : Bool :=
  c == ' ' || c == '\t' || c == '\n' || c == '\r' || c == '\x0b' || c == '\x0c' || c == ' '

/-- The opening-boundary class `[\s"'(<\[{,;:]` of the file-name regex. -/
def isOpenDelim (c : Char) : Bool :=
  isSpaceChar c || c == '\x22' || c == '\x27' || c == '(' || c == '<' ||
    c == '[' || c == '\x7b' || c == ',' || c == ';' || c == ':'

/-- The closing-lookahead class `[\s"'>)\]},;:]` of the file-name regex. -/
def isCloseDelim (c : Char) : Bool :=
  isSpaceChar c || c == '\x22' || c == '\x27' || c == '>' || c == ')' ||
    c == ']' || c == '\x7d' || c == ',' || c == ';' || c == ':'

/-- First character of the name body: `[A-Za-z0-9_]`. -/
def isNameStart (c : Char) : Bool :=
  c.isAlpha || c.isDigit || c == '_'

/-- Continuation characters of the name body: `[A-Za-z0-9_\-\.\s()\[\]]`. -/
def isNameBody (c : Char) : Bool :=
  isNameStart c || c == '-' || c == '.' || c == '(' || c == ')' ||
    c == '[' || c == ']' || isSpaceChar c

/-- `FILE_EXTENSIONS` from `fileNameExtractor.ts`, in source order (the
regex alternation `pdf|docx|doc|...` is ordered). -/
def FILE_EXTENSIONS : List String :=
  ["pdf", "docx", "doc", "xlsx", "xls", "csv", "txt",
   "jpg", "jpeg", "png", "gif", "bmp", "tiff", "tif",
   "pptx", "ppt", "rtf", "xml", "json", "html", "htm",
   "zip", "rar", "7z", "tar", "gz",
   "mp3", "mp4", "wav", "avi", "mov", "mkv",
   "eml", "msg", "pst"]

/-- Case-insensitive literal match of `pat` against a prefix of `l`
(the `i` flag); returns the input characters that were matched and the
remaining input. -/
def matchLitCI : List Char → List Char → Option (List Char × List Char)
  | [], l => some ([], l)
  | _ :: _, [] => none
  | p :: ps, c :: cs =>
    if p.toLower = c.toLower then
      (matchLitCI ps cs).map (fun r => (c :: r.1, r.2))
    else none

/-- Ordered extension alternation followed by the closing lookahead
`(?=[\s"'>)\]},;:]|$)`: an alternative whose literal matches but whose
lookahead fails is backtracked to the next alternative. -/
def matchExtList : List String → List Char → Option (List Char × List Char)
  | [], _ => none
  | e :: es, l =>
    match matchLitCI e.data l with
    | some (chars, rest) =>
      match rest with
      | [] => some (chars, [])
      | c :: _ => if isCloseDelim c then some (chars, rest) else matchExtList es l
    | none => matchExtList es l

/-- The tail `\.(?:pdf|docx|...)` of the capture group plus lookahead. -/
def matchDotExt (l : List Char) : Option (List Char × List Char) :=
  match l with
  | '.' :: rest => (matchExtList FILE_EXTENSIONS rest).map (fun r => ('.' :: r.1, r.2))
  | _ => none

/-- Greedy `{0,200}` body with backtracking: try a body of `k` characters
(always a prefix of the maximal body run), then the dot-extension tail;
on failure retry with `k - 1`. -/
def tryBodyLen (l : List Char) : Nat → Option (List Char × List Char)
  | 0 => matchDotExt l
  | k + 1 =>
    match matchDotExt (l.drop (k + 1)) with
    | some (tail, rest) => some (l.take (k + 1) ++ tail, rest)
    | none => tryBodyLen l k

/-- Capture group 1 of the file-name regex starting exactly at `l`:
`[A-Za-z0-9_][A-Za-z0-9_\-\.\s()\[\]]{0,200}\.(?:ext)` followed by the
closing lookahead (which consumes nothing). -/
def matchGroupAt (l : List Char) : Option (List Char × List Char) :=
  match l with
  | [] => none
  | c :: rest =>
    if isNameStart c then
      (tryBodyLen rest (min 200 (rest.takeWhile isNameBody).length)).map
        (fun r => (c :: r.1, r.2))
    else none

/-- One global `exec` pass of the file-name regex, returning the capture
groups in match order.  `atStart` records whether the current position is
the start of the input (where the `^` alternative of the opening boundary
applies); the other alternative consumes one opening delimiter.  Every
step consumes at least one character, so `fuel = length + 1` is exact. -/
def scanNames : Nat → List Char → Bool → List (List Char)
  | 0, _, _ => []
  | _ + 1, [], _ => []
  | fuel + 1, c :: rest, atStart =>
    match (if atStart then matchGroupAt (c :: rest) else none) with
    | some (g, r) => g :: scanNames fuel r false
    | none =>
      if isOpenDelim c then
        match matchGroupAt rest with
        | some (g, r) => g :: scanNames fuel r false
        | none => scanNames fuel rest false
      else scanNames fuel rest false

/-- `text.split(sep)` on character lists; always returns at least one
segment, and an empty input yields `[[]]` as in JS. -/
def splitChar (sep : Char) : List Char → List (List Char)
  | [] => [[]]
  | c :: t =>
    match splitChar sep t with
    | [] => [[]]
    | s :: ss => if c = sep then [] :: s :: ss else (c :: s) :: ss

/-- `Array.prototype.join('.')` for the segments kept after `pop()`. -/
def joinDot : List (List Char) → List Char
  | [] => []
  | [s] => s
  | s :: u :: t => s ++ '.' :: joinDot (u :: t)

/-- `String.prototype.trim`. -/
def jsTrim (l : List Char) : List Char :=
  ((l.dropWhile isSpaceChar).reverse.dropWhile isSpaceChar).reverse

/-- `toLowerCase` on the character material that occurs here (ASCII). -/
def jsLower (l : List Char) : List Char :=
  l.map Char.toLower

/-- One recognized file-name token (`ExtractedFileName` in the source;
`confidence` is only ever set by the out-of-scope AI extractor and is
omitted). -/
structure ExtractedFileName where
  name : String
  extension : String
  line : Option Nat := none
deriving DecidableEq, Repr

/-- `PatternGroup` from the source. -/
structure PatternGroup where
  pattern : String
  files : List ExtractedFileName
  count : Nat
  description : Option String := none
deriving DecidableEq, Repr

/-- `ExtractionResult` from the source (`summary`/`documentType` are only
set by the out-of-scope AI extractor and are omitted). -/
structure ExtractionResult where
  totalFound : Nat
  patterns : List PatternGroup
  duplicates : List String
  aiEnhanced : Option Bool := none
deriving DecidableEq, Repr

/-- `parts.pop()?.toLowerCase() || ''`: the lower-cased last `.`-segment. -/
def extOf (clean : List Char) : String :=
  String.mk (jsLower ((splitChar '.' clean).getLastD []))

/-- The per-match body of the tokenizer loop: trim, strip leading
delimiters, drop names of length `≤ 2`, emit unless already seen
case-insensitively, and record the lower-cased name in the seen set.
State is `(seen, output)`. -/
def extractStep (lineNum : Nat) (acc : List String × List ExtractedFileName)
    (g : List Char) : List String × List ExtractedFileName :=
  let fileName := jsTrim g
  if 2 < fileName.length then
    let cleanName := jsTrim (fileName.dropWhile isOpenDelim)
    let lower := String.mk (jsLower cleanName)
    let out :=
      if 2 < cleanName.length ∧ ¬ acc.1.contains lower then
        acc.2 ++ [{ name := String.mk cleanName, extension := extOf cleanName,
                    line := some (lineNum + 1) }]
      else acc.2
    let seen :=
      if 2 < cleanName.length then
        (if acc.1.contains lower then acc.1 else acc.1 ++ [lower])
      else acc.1
    (seen, out)
  else acc

/-- The line loop of `extractFileNames`: scan each line separately,
threading the seen-set across lines; `lineNum` is 0-based here and
1-based in the emitted records. -/
def extractLines (lineNum : Nat) (acc : List String × List ExtractedFileName) :
    List (List Char) → List String × List ExtractedFileName
  | [] => acc
  | line :: rest =>
    extractLines (lineNum + 1)
      ((scanNames (line.length + 1) line true).foldl (extractStep lineNum) acc) rest

/-- `extractFileNames` from the source. -/
def extractFileNames (text : String) : List ExtractedFileName :=
  (extractLines 0 ([], []) (splitChar '\n' text.data)).2

/-- `counts.set(f, (counts.get(f) || 0) + 1)` on the insertion-ordered map. -/
def bumpCount : List (String × Nat) → String → List (String × Nat)
  | [], k => [(k, 1)]
  | (k', n) :: rest, k =>
    if k' = k then (k', n + 1) :: rest else (k', n) :: bumpCount rest k

/-- The body of the counting loop of `findDuplicates`: lower-cased,
trimmed match, counted only when longer than two characters. -/
def dupStep (cs : List (String × Nat)) (g : List Char) : List (String × Nat) :=
  let f := String.mk (jsLower (jsTrim g))
  if 2 < f.length then bumpCount cs f else cs

/-- `findDuplicates` from the source: the same regex run over the whole
text as one unit, counting every match (no dedup gate), keeping the
names whose count exceeds one. -/
def findDuplicates (text : String) : List String :=
  let gs := scanNames (text.length + 1) text.data true
  let counts := gs.foldl dupStep []
  (counts.filter (fun p => 1 < p.2)).map (fun p => p.1)

/-!  The replacement chain of `identifyPattern`.  Each `String.replace`
with a global regex is a left-to-right scan: at each position the fixed
pattern is tried with full backtracking; on a match the replacement is
emitted and the scan resumes after the matched characters.  A matcher
returns the replacement characters and the number of characters
consumed (always at least one). -/

/-- Generic `replace(/…/g)` scan; every matcher used below consumes at
least one character per match, so `fuel = length` suffices. -/
def replaceScan (m : List Char → Option (List Char × Nat)) :
    Nat → List Char → List Char
  | 0, l => l
  | _ + 1, [] => []
  | fuel + 1, c :: t =>
    match m (c :: t) with
    | some (rep, n) => rep ++ replaceScan m fuel ((c :: t).drop n)
    | none => c :: replaceScan m fuel t

def jsReplaceAll (m : List Char → Option (List Char × Nat)) (l : List Char) :
    List Char :=
  replaceScan m l.length l

/-- `\d{n}` (exactly n digits); returns the rest of the input. -/
def takeDigits : List Char → Nat → Option (List Char)
  | l, 0 => some l
  | [], _ + 1 => none
  | c :: t, n + 1 => if c.isDigit then takeDigits t n else none

/-- Greedy `[-_]?`: try consuming a separator first, then fall back to
consuming nothing. -/
def optSep (k : List Char → Option (List Char)) : List Char → Option (List Char)
  | [] => k []
  | c :: t =>
    if c = '-' ∨ c = '_' then (k t).orElse (fun _ => k (c :: t))
    else k (c :: t)

/-- `/\d{4}[-_]?\d{2}[-_]?\d{2}/g` replaced by `DATE`. -/
def matchDate1 (l : List Char) : Option (List Char × Nat) :=
  match takeDigits l 4 with
  | none => none
  | some r1 =>
    match optSep (fun r2 => (takeDigits r2 2).bind
        (fun r3 => optSep (fun r4 => takeDigits r4 2) r3)) r1 with
    | none => none
    | some rest => some ("DATE".data, l.length - rest.length)

/-- `/\d{2}[-_]?\d{2}[-_]?\d{4}/g` replaced by `DATE`. -/
def matchDate2 (l : List Char) : Option (List Char × Nat) :=
  match takeDigits l 2 with
  | none => none
  | some r1 =>
    match optSep (fun r2 => (takeDigits r2 2).bind
        (fun r3 => optSep (fun r4 => takeDigits r4 4) r3)) r1 with
    | none => none
    | some rest => some ("DATE".data, l.length - rest.length)

/-- `/(?:19|20)\d{2}/g` replaced by `YYYY`; note the pattern is not
anchored to a whole digit run, so it also fires inside longer runs. -/
def matchYear (l : List Char) : Option (List Char × Nat) :=
  match l with
  | c1 :: c2 :: t =>
    if (c1 = '1' ∧ c2 = '9') ∨ (c1 = '2' ∧ c2 = '0') then
      match takeDigits t 2 with
      | some _ => some ("YYYY".data, 4)
      | none => none
    else none
  | _ => none

/-- `/\d{3,}/g` replaced by `XXX` (greedy: the whole digit run). -/
def matchDigits3 (l : List Char) : Option (List Char × Nat) :=
  let run := (l.takeWhile Char.isDigit).length
  if 3 ≤ run then some ("XXX".data, run) else none

/-- `/\d{2}/g` replaced by `XX`. -/
def matchDigits2 (l : List Char) : Option (List Char × Nat) :=
  match takeDigits l 2 with
  | some _ => some ("XX".data, 2)
  | none => none

/-- `/\d/g` replaced by `X`. -/
def matchDigit1 (l : List Char) : Option (List Char × Nat) :=
  match l with
  | c :: _ => if c.isDigit then some ("X".data, 1) else none
  | [] => none

/-- `/([-_])([A-Z])(?=[-_.]|$)/gi` replaced by `$1X` (the `i` flag makes
`[A-Z]` match either case; the lookahead consumes nothing). -/
def matchSeqMarker (l : List Char) : Option (List Char × Nat) :=
  match l with
  | c1 :: c2 :: t =>
    if (c1 = '-' ∨ c1 = '_') ∧ c2.isAlpha then
      match t with
      | [] => some ([c1, 'X'], 2)
      | c3 :: _ =>
        if c3 = '-' ∨ c3 = '_' ∨ c3 = '.' then some ([c1, 'X'], 2) else none
    else none
  | _ => none

/-- The ordered, case-sensitive alternation `YYYY|DATE|XXX|XX|X`. -/
def matchPlaceholder (u : List Char) : Option (List Char) :=
  if "YYYY".data.isPrefixOf u then some "YYYY".data
  else if "DATE".data.isPrefixOf u then some "DATE".data
  else if "XXX".data.isPrefixOf u then some "XXX".data
  else if "XX".data.isPrefixOf u then some "XX".data
  else if "X".data.isPrefixOf u then some "X".data
  else none

/-- Continuation of the `VAR` rule after the greedy letter run: the
second `([-_])` and the placeholder alternation. -/
def matchVarAfter (c1 : Char) (letters : List Char) :
    List Char → Option (List Char × Nat)
  | [] => none
  | c3 :: u =>
    if c3 = '-' ∨ c3 = '_' then
      match matchPlaceholder u with
      | some ph =>
        some (c1 :: ("VAR".data ++ c3 :: ph), 1 + letters.length + 1 + ph.length)
      | none => none
    else none

/-- `/([-_])([A-Za-z]+)([-_])(YYYY|DATE|XXX|XX|X)/g` replaced by
`$1VAR$3$4`.  Backtracking note: shortening the greedy `[A-Za-z]+` run
always places a letter where `([-_])` must match, so only the maximal
letter run can succeed. -/
def matchVarSegment (l : List Char) : Option (List Char × Nat) :=
  match l with
  | [] => none
  | c1 :: t =>
    if c1 = '-' ∨ c1 = '_' then
      let letters := t.takeWhile Char.isAlpha
      if letters.length = 0 then none
      else matchVarAfter c1 letters (t.drop letters.length)
    else none

/-- `identifyPattern` from the source: split off the extension, run the
eight ordered substitutions on the base name, reassemble. -/
def identifyPattern (fileName : String) : String :=
  let parts := splitChar '.' fileName.data
  let ext := parts.getLastD []
  let base := joinDot parts.dropLast
  let p := jsReplaceAll matchDate1 base
  let p := jsReplaceAll matchDate2 p
  let p := jsReplaceAll matchYear p
  let p := jsReplaceAll matchDigits3 p
  let p := jsReplaceAll matchDigits2 p
  let p := jsReplaceAll matchDigit1 p
  let p := jsReplaceAll matchSeqMarker p
  let p := jsReplaceAll matchVarSegment p
  String.mk (p ++ '.' :: ext)

/-- `[A-Z0-9]` (no `i` flag in `extractPrefix`). -/
def isUpperDigit (c : Char) : Bool :=
  ('A' ≤ c && c ≤ 'Z') || c.isDigit

/-- `extractPrefix` from the source:
`baseName.match(/^([A-Za-z]+[-_]?|[A-Z0-9]+[-_])/)`, falling back to the
first four characters of the base name.  In the second alternative only
the maximal `[A-Z0-9]` run can be followed by the mandatory separator. -/
def extractPrefixOf (fileName : String) : String :=
  let parts := splitChar '.' fileName.data
  let base := joinDot parts.dropLast
  match base with
  | [] => String.mk (base.take 4)
  | c :: _ =>
    if c.isAlpha then
      let letters := base.takeWhile Char.isAlpha
      match base.drop letters.length with
      | [] => String.mk letters
      | s :: _ =>
        if s = '-' ∨ s = '_' then String.mk (letters ++ [s])
        else String.mk letters
    else
      let run := base.takeWhile isUpperDigit
      if run.length = 0 then String.mk (base.take 4)
      else
        match base.drop run.length with
        | [] => String.mk (base.take 4)
        | s :: _ =>
          if s = '-' ∨ s = '_' then String.mk (run ++ [s])
          else String.mk (base.take 4)

/-- Length of the common leading run, `shorter[i] === longer[i]`. -/
def commonPrefixLen : List Char → List Char → Nat
  | a :: as, b :: bs => if a = b then commonPrefixLen as bs + 1 else 0
  | _, _ => 0

/-- The clustering test `patternSimilarity(p1, p2) > 0.85`.  The JS
floating-point quotient `matchLength / longer.length` compared with the
literal `0.85` is modelled as the exact rational comparison
`20 * matchLength > 17 * longer.length`; for the list lengths that can
occur the double rounding error is far below the distance to the
threshold, and the boundary case `matchLength / longer.length == 0.85`
is exact in both readings. -/
def similarAbove (p1 p2 : String) : Bool :=
  if p1 = p2 then true
  else
    let longer := if p1.length > p2.length then p1 else p2
    let shorter := if p1.length > p2.length then p2 else p1
    if longer.length = 0 then true
    else 20 * commonPrefixLen shorter.data longer.data > 17 * longer.length

/-- `existingKey.split('|')` destructured into prefix and pattern parts
(every key stored in the map contains a `|`, so both parts exist). -/
def keyParts (key : String) : String × String :=
  let segs := splitChar '|' key.data
  (String.mk (segs.getD 0 []), String.mk (segs.getD 1 []))

/-- The per-key test of the clustering loop, in source order:
`existingPrefix === prefix || patternSimilarity(pattern, existingPattern) > 0.85`. -/
def keyMatches (pfx pat key : String) : Bool :=
  (keyParts key).1 == pfx || similarAbove pat (keyParts key).2

/-- Append `f` to the first entry whose key satisfies `p`; `none` if no
key matches (the caller then appends a fresh entry). -/
def insertIntoFirst (p : String → Bool) (f : ExtractedFileName) :
    List (String × List ExtractedFileName) →
      Option (List (String × List ExtractedFileName))
  | [] => none
  | (k, fs) :: rest =>
    if p k then some ((k, fs ++ [f]) :: rest)
    else (insertIntoFirst p f rest).map (fun m => (k, fs) :: m)

/-- One iteration of the clustering loop of `groupByPattern`. -/
def clusterStep (groups : List (String × List ExtractedFileName))
    (f : ExtractedFileName) : List (String × List ExtractedFileName) :=
  let pat := identifyPattern f.name
  let pfx := extractPrefixOf f.name
  match insertIntoFirst (keyMatches pfx pat) f groups with
  | some g => g
  | none => groups ++ [(pfx ++ "|" ++ pat, [f])]

/-- `key.split('|')[1] || key`: the display pattern of a group key. -/
def displayPattern (key : String) : String :=
  let s := (splitChar '|' key.data).getD 1 []
  if s = [] then key else String.mk s

/-- Stable insertion (descending by `count`): JS `Array.prototype.sort`
with the comparator `(a, b) => b.count - a.count` is a stable sort for
this consistent comparator, so any stable descending sort is a faithful
model. -/
def insertByCountDesc (g : PatternGroup) : List PatternGroup → List PatternGroup
  | [] => [g]
  | h :: t => if h.count > g.count then h :: insertByCountDesc g t else g :: h :: t

def sortByCountDesc (l : List PatternGroup) : List PatternGroup :=
  l.foldr insertByCountDesc []

/-- The groups built by `groupByPattern` just before the demotion pass:
cluster, convert to `PatternGroup`s, sort descending by count. -/
def groupByPatternRaw (fileNames : List ExtractedFileName) : List PatternGroup :=
  let m := fileNames.foldl clusterStep []
  sortByCountDesc (m.map (fun e =>
    { pattern := displayPattern e.1, files := e.2, count := e.2.length }))

/-- `groupByPattern` from the source: demote every single-file group into
one shared `Miscellaneous` group appended last (created only when some
single-file group exists). -/
def groupByPattern (fileNames : List ExtractedFileName) : List PatternGroup :=
  let groups := groupByPatternRaw fileNames
  let miscFiles := ((groups.filter (fun g => g.count == 1)).map
    (fun g => g.files)).flatten
  let regular := groups.filter (fun g => g.count != 1)
  if miscFiles.isEmpty then regular
  else regular ++ [{ pattern := "Miscellaneous", files := miscFiles,
                     count := miscFiles.length }]

/-- `analyzeDocument` from the source. -/
def analyzeDocument (text : String) : ExtractionResult :=
  let fileNames := extractFileNames text
  { totalFound := fileNames.length
    patterns := groupByPattern fileNames
    duplicates := findDuplicates text }

/-!  The cross-document merge of `analyze-batch/route.ts`. -/

/-- One element of the `results` array passed to `mergeAnalysisResults`. -/
structure MergeInput where
  fileName : String
  analysis : ExtractionResult
deriving DecidableEq, Repr

/-- A value of the `allPatterns` map. -/
structure MergeEntry where
  files : List ExtractedFileName
  description : Option String := none
deriving DecidableEq, Repr

/-- The aggregate result (`ExtractionResult & {aiEnhanced, sourceFiles}`). -/
structure MergeOutput where
  totalFound : Nat
  patterns : List PatternGroup
  duplicates : List String
  aiEnhanced : Bool
  sourceFiles : List String
deriving DecidableEq, Repr

/-- Merging one incoming group into the `allPatterns` map: append the
files to an existing entry with the same pattern string (keeping the
first-seen description), or insert a fresh entry at the end. -/
def mergeOnePattern : List (String × MergeEntry) → PatternGroup →
    List (String × MergeEntry)
  | [], g => [(g.pattern, { files := g.files, description := g.description })]
  | (k, e) :: rest, g =>
    if k = g.pattern then
      (k, { files := e.files ++ g.files, description := e.description }) :: rest
    else (k, e) :: mergeOnePattern rest g

/-- `Set.prototype.add` on the insertion-ordered duplicates set. -/
def addDup (ds : List String) (d : String) : List String :=
  if ds.contains d then ds else ds ++ [d]

/-- Loop state of `mergeAnalysisResults`. -/
structure MergeState where
  patternsMap : List (String × MergeEntry) := []
  dups : List String := []
  sources : List String := []
  ai : Bool := false

/-- The body of the `for (const {fileName, analysis} of results)` loop. -/
def mergeStep (st : MergeState) (r : MergeInput) : MergeState :=
  { patternsMap := r.analysis.patterns.foldl mergeOnePattern st.patternsMap
    dups := r.analysis.duplicates.foldl addDup st.dups
    sources := st.sources ++ [r.fileName]
    ai := st.ai || (r.analysis.aiEnhanced == some true) }

/-- `mergeAnalysisResults` from `analyze-batch/route.ts`. -/
def mergeAnalysisResults (results : List MergeInput) : MergeOutput :=
  let st := results.foldl mergeStep {}
  let patterns := sortByCountDesc (st.patternsMap.map (fun e =>
    { pattern := e.1, files := e.2.files, count := e.2.files.length,
      description := e.2.description }))
  { totalFound := patterns.foldl (fun s p => s + p.count) 0
    patterns := patterns
    duplicates := st.dups
    aiEnhanced := st.ai
    sourceFiles := st.sources }

/-!  Concrete inputs used by the claim theorems. -/

/-- Two documents that each contributed one lone file, plus a third: the
per-document results a batch of `readme.txt`-style documents produces. -/
def miscFile1 : ExtractedFileName := { name := "readme.txt", extension := "txt", line := some 1 }
def miscFile2 : ExtractedFileName := { name := "notes.txt", extension := "txt", line := some 1 }
def miscFile3 : ExtractedFileName := { name := "todo.txt", extension := "txt", line := some 1 }
def bFile1 : ExtractedFileName := { name := "B_001.pdf", extension := "pdf", line := some 1 }
def bFile2 : ExtractedFileName := { name := "B_002.pdf", extension := "pdf", line := some 2 }

def mergeMiscInputs : List MergeInput :=
  [⟨"d1", { totalFound := 1, duplicates := []
            patterns := [{ pattern := "Miscellaneous", files := [miscFile1], count := 1 }] }⟩,
   ⟨"d2", { totalFound := 1, duplicates := []
            patterns := [{ pattern := "Miscellaneous", files := [miscFile2], count := 1 }] }⟩,
   ⟨"d3", { totalFound := 1, duplicates := []
            patterns := [{ pattern := "Miscellaneous", files := [miscFile3], count := 1 }] }⟩,
   ⟨"d4", { totalFound := 2, duplicates := []
            patterns := [{ pattern := "B_XXX.pdf", files := [bFile1, bFile2], count := 2 }] }⟩]

/-- Input names containing `|`, which leaks into the composite group key
and makes the displayed pattern the literal `Miscellaneous`. -/
def advNames : List ExtractedFileName :=
  [{ name := "Miscellaneous|a.pdf", extension := "pdf" },
   { name := "Miscellaneous|b.pdf", extension := "pdf" }]

/-- Total number of files stored in a clustering map. -/
def sumFiles (m : List (String × List ExtractedFileName)) : Nat :=
  (m.map (fun e => e.2.length)).sum

/-- `allPatterns.get(pattern)`: first entry of the association list. -/
def lookupEntry (p : String) : List (String × MergeEntry) → Option MergeEntry
  | [] => none
  | (k, e) :: rest => if k = p then some e else lookupEntry p rest

def aFile1 : ExtractedFileName := { name := "A1.pdf", extension := "pdf", line := some 1 }

def aFile2 : ExtractedFileName := { name := "A2.pdf", extension := "pdf", line := some 1 }

/-- The per-document results of concrete scenario 4. -/
def mergeScenarioInputs : List MergeInput :=
  [⟨"d1", { totalFound := 1, duplicates := []
            patterns := [{ pattern := "A.pdf", files := [aFile1], count := 1 }] }⟩,
   ⟨"d2", { totalFound := 1, duplicates := []
            patterns := [{ pattern := "A.pdf", files := [aFile2], count := 1 }] }⟩]

/-- All files held under pattern string `p` in a group list. -/
def filesOfGroups (ps : List PatternGroup) (p : String) : List ExtractedFileName :=
  ((ps.filter (fun g => g.pattern == p)).map (fun g => g.files)).flatten

/-- Whether some group carries pattern string `p`. -/
def hasPattern (ps : List PatternGroup) (p : String) : Bool :=
  ps.any (fun g => g.pattern == p)

def optFiles : Option MergeEntry → List ExtractedFileName
  | some e => e.files
  | none => []

/-- All files held under pattern string `p` across a list of merge inputs. -/
def allFilesOf (rs : List MergeInput) (p : String) : List ExtractedFileName :=
  (rs.map (fun r => filesOfGroups r.analysis.patterns p)).flatten

/-- Re-wrapping the merged batch output as a merge input, as the call
`mergeAnalysisResults([A, merge([B, C])])` would (the extra
`sourceFiles` field is never read by the merge). -/
def reMergeInput (nm : String) (o : MergeOutput) : MergeInput :=
  ⟨nm, { totalFound := o.totalFound, patterns := o.patterns,
         duplicates := o.duplicates, aiEnhanced := some o.aiEnhanced }⟩

/-- The group view of the merge map.  -/
def mkMergedGroup (e : String × MergeEntry) : PatternGroup :=
  { pattern := e.1, files := e.2.files, count := e.2.files.length,
    description := e.2.description }

/-- Invariant on the keys of the duplicate-count map. -/
def dupKeyGood (s : String) : Prop :=
  s = String.mk (jsLower s.data) ∧ 2 < s.length

/-- C1, counterexample: on input text containing `readme.md` exactly once
and nothing else, `analyzeDocument` does not return `totalFound == 1`
with one `Miscellaneous` group — it finds nothing, because `md` is not
among `FILE_EXTENSIONS`. -/
theorem c1_counterexample :
    (analyzeDocument "readme.md").totalFound = 0 ∧
      (analyzeDocument "readme.md").patterns = [] := by
  constructor <;> decide

/-- C1, amended: for input text containing `readme.md` exactly once and
no other file names, `analyzeDocument` returns `totalFound == 0`, no
pattern groups at all (not even `Miscellaneous`), and no duplicates,
since `md` is not a recognized extension. -/
theorem c1_amended :
    analyzeDocument "readme.md" =
      { totalFound := 0, patterns := [], duplicates := [] } := by
  decide

/-- C3, counterexample: the base name `doc12019` contains a five-digit
run, yet `identifyPattern` hands `2019` inside it to the `YYYY` rule
instead of handling the whole run by the 3+-digit rule. -/
theorem c3_counterexample :
    identifyPattern "doc12019.pdf" = "docXYYYY.pdf" ∧
      identifyPattern "doc12019.pdf" ≠ "docXXX.pdf" := by
  constructor <;> decide

/-- C3, amended: the `YYYY` substitution replaces every occurrence of
`19` or `20` followed by two digits — also inside digit runs longer than
four — and only the remaining runs of three or more digits become `XXX`;
so `doc12019` → `docXYYYY`, `doc2019` → `docYYYY`, `doc12345` → `docXXX`. -/
theorem c3_amended :
    identifyPattern "doc12019.pdf" = "docXYYYY.pdf" ∧
      identifyPattern "doc2019.pdf" = "docYYYY.pdf" ∧
      identifyPattern "doc12345.pdf" = "docXXX.pdf" := by
  refine ⟨by decide, by decide, by decide⟩

/-- C6, counterexample: for `Invoice_001.pdf` on two lines,
`findDuplicates` does not report `invoice_001.pdf` — the whole-text scan
is a single greedy match spanning the newline, so nothing occurs twice. -/
theorem c6_counterexample :
    findDuplicates "Invoice_001.pdf\nInvoice_001.pdf" = [] := by
  decide

/-- C6, amended: for input text containing `Invoice_001.pdf` verbatim on
two different lines (and nothing else), `extractFileNames` emits exactly
one `ExtractedName` carrying the first occurrence's 1-based line number,
and `findDuplicates` returns the empty list: its whole-text scan matches
both lines as one single name, because the greedy name body includes
whitespace and therefore the newline. -/
theorem c6_amended :
    extractFileNames "Invoice_001.pdf\nInvoice_001.pdf" =
        [{ name := "Invoice_001.pdf", extension := "pdf", line := some 1 }] ∧
      findDuplicates "Invoice_001.pdf\nInvoice_001.pdf" = [] := by
  constructor <;> decide

/-- C9: `analyzeDocument` applied to the empty string returns a result
with `totalFound == 0`, no pattern groups (not even `Miscellaneous`) and
no duplicates; the function is total, so no error is possible. -/
theorem c9_empty_input :
    analyzeDocument "" = { totalFound := 0, patterns := [], duplicates := [] } := by
  decide

/-- C2, counterexample: merging per-document results whose shared
`Miscellaneous` group accumulates count 3 places it first, ahead of a
count-2 group — `mergeAnalysisResults` sorts only by count and never
moves `Miscellaneous` last. -/
theorem c2_counterexample :
    (mergeAnalysisResults mergeMiscInputs).patterns.map (fun g => g.pattern) =
      ["Miscellaneous", "B_XXX.pdf"] := by
  decide

/-!  Properties of the stable descending sort. -/

theorem insertByCountDesc_perm (g : PatternGroup) (l : List PatternGroup) :
    (insertByCountDesc g l).Perm (g :: l) := by
  induction l with
  | nil => simp [insertByCountDesc]
  | cons h t ih =>
    simp only [insertByCountDesc]
    by_cases hc : h.count > g.count
    · simp only [hc, if_true]
      exact ((ih.cons h).trans (List.Perm.swap g h t))
    · simp [hc]

theorem sortByCountDesc_perm (l : List PatternGroup) :
    (sortByCountDesc l).Perm l := by
  induction l with
  | nil => simp [sortByCountDesc]
  | cons h t ih =>
    simpa [sortByCountDesc] using
      (insertByCountDesc_perm h (sortByCountDesc t)).trans (ih.cons h)

theorem insertByCountDesc_pairwise (g : PatternGroup) (l : List PatternGroup)
    (hl : l.Pairwise (fun a b => b.count ≤ a.count)) :
    (insertByCountDesc g l).Pairwise (fun a b => b.count ≤ a.count) := by
  induction l with
  | nil => simp [insertByCountDesc]
  | cons h t ih =>
    rcases List.pairwise_cons.mp hl with ⟨hh, ht⟩
    simp only [insertByCountDesc]
    by_cases hc : h.count > g.count
    · simp only [hc, if_true]
      refine List.pairwise_cons.mpr ⟨?_, ih ht⟩
      intro x hx
      rcases List.mem_cons.mp ((insertByCountDesc_perm g t).mem_iff.mp hx) with rfl | hx
      · exact Nat.le_of_lt hc
      · exact hh x hx
    · simp only [hc, if_false]
      refine List.pairwise_cons.mpr ⟨?_, hl⟩
      intro x hx
      rcases List.mem_cons.mp hx with rfl | hx
      · exact Nat.le_of_not_lt hc
      · exact Nat.le_trans (hh x hx) (Nat.le_of_not_lt hc)

theorem sortByCountDesc_pairwise (l : List PatternGroup) :
    (sortByCountDesc l).Pairwise (fun a b => b.count ≤ a.count) := by
  induction l with
  | nil => simp [sortByCountDesc]
  | cons h t ih => exact insertByCountDesc_pairwise h (sortByCountDesc t) ih

/-- C2, amended: `groupByPattern` returns the sorted (descending by
count) non-demoted groups followed by the demotion-created
`Miscellaneous` group, if any; `mergeAnalysisResults` sorts its output
descending by count only — a `Miscellaneous` group is not moved last. -/
theorem c2_amended :
    (∀ fns : List ExtractedFileName, ∃ rs ms,
        groupByPattern fns = rs ++ ms ∧
        rs.Pairwise (fun a b => b.count ≤ a.count) ∧
        ms.length ≤ 1 ∧ ∀ g ∈ ms, g.pattern = "Miscellaneous") ∧
    ∀ results : List MergeInput,
      (mergeAnalysisResults results).patterns.Pairwise
        (fun a b => b.count ≤ a.count) := by
  constructor
  · intro fns
    have hsorted : ((groupByPatternRaw fns).filter
        (fun g => g.count != 1)).Pairwise (fun a b => b.count ≤ a.count) :=
      List.Pairwise.sublist (List.filter_sublist _) (sortByCountDesc_pairwise _)
    by_cases hm : (((((groupByPatternRaw fns).filter
        (fun g => g.count == 1)).map (fun g => g.files)).flatten).isEmpty : Bool)
    · refine ⟨(groupByPatternRaw fns).filter (fun g => g.count != 1), [], ?_,
        hsorted, by simp, by simp⟩
      simp [groupByPattern, hm]
    · refine ⟨(groupByPatternRaw fns).filter (fun g => g.count != 1),
        [{ pattern := "Miscellaneous"
           files := ((((groupByPatternRaw fns).filter
             (fun g => g.count == 1)).map (fun g => g.files)).flatten)
           count := ((((groupByPatternRaw fns).filter
             (fun g => g.count == 1)).map (fun g => g.files)).flatten).length }],
        ?_, hsorted, by simp, by simp⟩
      simp [groupByPattern, hm]
  · intro results
    exact sortByCountDesc_pairwise _

/-- C2, witness for the amended theorem at the concrete merge input. -/
theorem c2_witness :
    (mergeAnalysisResults mergeMiscInputs).patterns.Pairwise
      (fun a b => b.count ≤ a.count) :=
  c2_amended.2 mergeMiscInputs

/-!  The count invariant: every group counts its own files, and the
clustering fold distributes each input file into exactly one map entry. -/

theorem sumFiles_insertIntoFirst {p : String → Bool} {f : ExtractedFileName}
    {m m' : List (String × List ExtractedFileName)}
    (h : insertIntoFirst p f m = some m') : sumFiles m' = sumFiles m + 1 := by
  induction m generalizing m' with
  | nil => simp [insertIntoFirst] at h
  | cons e rest ih =>
    rcases e with ⟨k, fs⟩
    simp only [insertIntoFirst] at h
    split at h
    · cases h
      simp [sumFiles]
      omega
    · rcases Option.map_eq_some'.mp h with ⟨m'', h1, rfl⟩
      simp [sumFiles] at ih h1 ⊢
      rw [ih h1]
      omega

theorem sumFiles_clusterStep (m : List (String × List ExtractedFileName))
    (f : ExtractedFileName) : sumFiles (clusterStep m f) = sumFiles m + 1 := by
  simp only [clusterStep]
  cases h : insertIntoFirst
      (keyMatches (extractPrefixOf f.name) (identifyPattern f.name)) f m with
  | some m' => simpa using sumFiles_insertIntoFirst h
  | none => simp [sumFiles, List.map_append, List.sum_append]

theorem sumFiles_fold (fns : List ExtractedFileName) :
    ∀ m, sumFiles (fns.foldl clusterStep m) = sumFiles m + fns.length := by
  induction fns with
  | nil => simp
  | cons f t ih =>
    intro m
    rw [List.foldl_cons, ih, sumFiles_clusterStep]
    simp
    omega

theorem groupByPatternRaw_count (fns : List ExtractedFileName) :
    ∀ g ∈ groupByPatternRaw fns, g.count = g.files.length := by
  intro g hg
  simp only [groupByPatternRaw] at hg
  rcases List.mem_map.mp ((sortByCountDesc_perm _).mem_iff.mp hg) with ⟨e, _, rfl⟩
  rfl

theorem groupByPatternRaw_sum (fns : List ExtractedFileName) :
    ((groupByPatternRaw fns).map (fun g => g.count)).sum = fns.length := by
  simp only [groupByPatternRaw]
  rw [((sortByCountDesc_perm _).map (fun g => g.count)).sum_eq, List.map_map]
  have h := sumFiles_fold fns []
  simp [sumFiles] at h
  simpa [Function.comp] using h

theorem sum_count_filter_split (l : List PatternGroup) :
    ((l.filter (fun g => g.count == 1)).map (fun g => g.count)).sum +
      ((l.filter (fun g => g.count != 1)).map (fun g => g.count)).sum =
      (l.map (fun g => g.count)).sum := by
  induction l with
  | nil => simp
  | cons g t ih =>
    simp only [List.filter_cons, List.map_cons, List.sum_cons]
    by_cases hg : (g.count == 1) = true
    · rw [if_pos hg, if_neg (by simp [bne, hg])]
      simp only [List.map_cons, List.sum_cons]
      omega
    · rw [if_neg hg, if_pos (by simp [bne, Bool.eq_false_iff.mpr hg])]
      simp only [List.map_cons, List.sum_cons]
      omega

theorem miscFiles_length (fns : List ExtractedFileName) :
    ((((groupByPatternRaw fns).filter (fun g => g.count == 1)).map
        (fun g => g.files)).flatten).length =
      (((groupByPatternRaw fns).filter (fun g => g.count == 1)).map
        (fun g => g.count)).sum := by
  rw [List.length_flatten, List.map_map]
  refine congrArg List.sum (List.map_congr_left ?_)
  intro g hg
  exact (groupByPatternRaw_count fns g (List.mem_filter.mp hg).1).symm

theorem groupByPattern_count (fns : List ExtractedFileName) :
    ∀ g ∈ groupByPattern fns, g.count = g.files.length := by
  intro g hg
  simp only [groupByPattern] at hg
  split at hg
  · exact groupByPatternRaw_count fns g (List.mem_filter.mp hg).1
  · rcases List.mem_append.mp hg with hg | hg
    · exact groupByPatternRaw_count fns g (List.mem_filter.mp hg).1
    · rcases List.mem_singleton.mp hg with rfl
      rfl

theorem singleton_filter_nil_of_flatten_nil (fns : List ExtractedFileName)
    (hm : ((((groupByPatternRaw fns).filter (fun g => g.count == 1)).map
      (fun g => g.files)).flatten) = []) :
    (groupByPatternRaw fns).filter (fun g => g.count == 1) = [] := by
  rcases h : (groupByPatternRaw fns).filter (fun g => g.count == 1) with _ | ⟨g, t⟩
  · exact h
  · exfalso
    have hg : g ∈ (groupByPatternRaw fns).filter (fun g => g.count == 1) := by
      rw [h]; exact List.mem_cons_self g t
    have hc : g.count = 1 := by
      have := (List.mem_filter.mp hg).2
      simpa using this
    have hfiles : g.files = [] := by
      refine (List.flatten_eq_nil_iff.mp hm) g.files (List.mem_map.mpr ⟨g, hg, rfl⟩)
    have := groupByPatternRaw_count fns g (List.mem_filter.mp hg).1
    rw [hc, hfiles] at this
    simp at this

theorem groupByPattern_sum (fns : List ExtractedFileName) :
    ((groupByPattern fns).map (fun g => g.count)).sum = fns.length := by
  have hsplit := sum_count_filter_split (groupByPatternRaw fns)
  have hraw := groupByPatternRaw_sum fns
  simp only [groupByPattern]
  split
  · rename_i hm
    rw [List.isEmpty_iff] at hm
    rw [singleton_filter_nil_of_flatten_nil fns hm] at hsplit
    simp only [List.map_nil, List.sum_nil, Nat.zero_add] at hsplit
    rw [hsplit, hraw]
  · rw [List.map_append, List.sum_append]
    simp only [List.map_cons, List.map_nil, List.sum_cons, List.sum_nil]
    rw [miscFiles_length fns]
    omega

theorem foldl_add_count (l : List PatternGroup) :
    ∀ n : Nat, l.foldl (fun s p => s + p.count) n = n + (l.map (fun g => g.count)).sum := by
  induction l with
  | nil => simp
  | cons g t ih =>
    intro n
    rw [List.foldl_cons, ih]
    simp
    omega

/-- C4: in every result of `analyzeDocument` and of
`mergeAnalysisResults`, each group's `count` equals its number of files,
and `totalFound` equals the sum of the counts (for `analyzeDocument`,
`totalFound` is the tokenizer's list length, so every extracted name
lands in exactly one group). -/
theorem c4_count_invariant :
    (∀ text : String,
        (∀ g ∈ (analyzeDocument text).patterns, g.count = g.files.length) ∧
        (analyzeDocument text).totalFound =
          ((analyzeDocument text).patterns.map (fun g => g.count)).sum) ∧
    ∀ results : List MergeInput,
        (∀ g ∈ (mergeAnalysisResults results).patterns, g.count = g.files.length) ∧
        (mergeAnalysisResults results).totalFound =
          ((mergeAnalysisResults results).patterns.map (fun g => g.count)).sum := by
  constructor
  · intro text
    refine ⟨groupByPattern_count _, ?_⟩
    simp only [analyzeDocument]
    exact (groupByPattern_sum (extractFileNames text)).symm
  · intro results
    constructor
    · intro g hg
      simp only [mergeAnalysisResults] at hg
      rcases List.mem_map.mp ((sortByCountDesc_perm _).mem_iff.mp hg) with ⟨e, _, rfl⟩
      rfl
    · simp only [mergeAnalysisResults]
      rw [foldl_add_count]
      simp

/-- C4, witness at a concrete document. -/
theorem c4_witness :
    (∀ g ∈ (analyzeDocument "Invoice_001.pdf\nInvoice_002.pdf").patterns,
        g.count = g.files.length) ∧
      (analyzeDocument "Invoice_001.pdf\nInvoice_002.pdf").totalFound =
        ((analyzeDocument "Invoice_001.pdf\nInvoice_002.pdf").patterns.map
          (fun g => g.count)).sum :=
  c4_count_invariant.1 "Invoice_001.pdf\nInvoice_002.pdf"

/-- C5, counterexample: for input names containing `|`, the clusterer
builds a natural group whose displayed pattern is the literal string
`Miscellaneous` with count 2; no singleton group exists (every
pre-demotion group has count 2), yet the output contains a
`Miscellaneous` group. -/
theorem c5_counterexample :
    ((groupByPatternRaw advNames).all (fun g => ¬ g.count == 1)) = true ∧
      (groupByPattern advNames).map (fun g => (g.pattern, g.count)) =
        [("Miscellaneous", 2)] := by
  constructor <;> decide

/-!  The cross-document merge is keyed on the exact pattern string. -/

/-- C7: `mergeAnalysisResults` accumulates by exact pattern string — if an
incoming group's pattern is already present, its files are appended to
the existing entry and the first-seen description is kept — and merging
two per-document results that each hold pattern `A.pdf` with one file
yields a single group with count 2 and both files in input order. -/
theorem c7_merge_by_pattern :
    (∀ (m : List (String × MergeEntry)) (g : PatternGroup) (e : MergeEntry),
        lookupEntry g.pattern m = some e →
        lookupEntry g.pattern (mergeOnePattern m g) =
          some { files := e.files ++ g.files, description := e.description }) ∧
    (mergeAnalysisResults mergeScenarioInputs).patterns =
      [{ pattern := "A.pdf", files := [aFile1, aFile2], count := 2 }] := by
  constructor
  · intro m g e h
    induction m with
    | nil => simp [lookupEntry] at h
    | cons ke rest ih =>
      rcases ke with ⟨k, e'⟩
      simp only [lookupEntry] at h
      by_cases hk : k = g.pattern
      · rw [if_pos hk] at h
        cases h
        simp [mergeOnePattern, hk, lookupEntry]
      · rw [if_neg hk] at h
        simp [mergeOnePattern, hk, lookupEntry, ih h]
  · decide

/-- C7, witness: the general part applied at a concrete map and group. -/
theorem c7_witness :
    lookupEntry "A.pdf"
        (mergeOnePattern [("A.pdf", { files := [aFile1], description := some "d" })]
          { pattern := "A.pdf", files := [aFile2], count := 1, description := some "x" }) =
      some { files := [aFile1, aFile2], description := some "d" } :=
  c7_merge_by_pattern.1
    [("A.pdf", { files := [aFile1], description := some "d" })]
    { pattern := "A.pdf", files := [aFile2], count := 1, description := some "x" }
    { files := [aFile1], description := some "d" } (by decide)

/-!  Merge associativity: the files accumulated under each pattern
string, and the set of pattern strings, are invariant under folding the
merge of the tail first. -/

theorem filesOfGroups_cons (g : PatternGroup) (gs : List PatternGroup) (p : String) :
    filesOfGroups (g :: gs) p =
      (if g.pattern = p then g.files else []) ++ filesOfGroups gs p := by
  by_cases h : g.pattern = p <;>
    simp [filesOfGroups, List.filter_cons, h]

theorem optFiles_mergeOnePattern (m : List (String × MergeEntry))
    (g : PatternGroup) (p : String) :
    optFiles (lookupEntry p (mergeOnePattern m g)) =
      optFiles (lookupEntry p m) ++ (if g.pattern = p then g.files else []) := by
  induction m with
  | nil =>
    by_cases hp : g.pattern = p <;>
      simp [mergeOnePattern, lookupEntry, optFiles, hp]
  | cons ke rest ih =>
    rcases ke with ⟨k, e⟩
    by_cases hk : k = g.pattern
    · by_cases hp : k = p
      · simp [mergeOnePattern, lookupEntry, optFiles, hk, hp, hk ▸ hp]
      · have hgp : ¬ g.pattern = p := fun h => hp (hk.trans h)
        simp [mergeOnePattern, lookupEntry, optFiles, hk, hp, hgp]
    · by_cases hp : k = p
      · have hgp : ¬ g.pattern = p := fun h => hk (hp.trans h.symm)
        have hpg : ¬ p = g.pattern := fun h => hgp h.symm
        simp [mergeOnePattern, lookupEntry, optFiles, hk, hp, hgp, hpg]
      · simp [mergeOnePattern, lookupEntry, hk, hp, ih]

theorem optFiles_foldl_mergeOnePattern (gs : List PatternGroup) (p : String) :
    ∀ m, optFiles (lookupEntry p (gs.foldl mergeOnePattern m)) =
      optFiles (lookupEntry p m) ++ filesOfGroups gs p := by
  induction gs with
  | nil => intro m; simp [filesOfGroups]
  | cons g gs ih =>
    intro m
    rw [List.foldl_cons, ih, optFiles_mergeOnePattern, filesOfGroups_cons,
      List.append_assoc]

theorem optFiles_foldl_mergeStep (rs : List MergeInput) (p : String) :
    ∀ st : MergeState,
      optFiles (lookupEntry p (rs.foldl mergeStep st).patternsMap) =
        optFiles (lookupEntry p st.patternsMap) ++ allFilesOf rs p := by
  induction rs with
  | nil => intro st; simp [allFilesOf]
  | cons r rs ih =>
    intro st
    rw [List.foldl_cons, ih]
    show optFiles (lookupEntry p (r.analysis.patterns.foldl mergeOnePattern
        st.patternsMap)) ++ allFilesOf rs p = _
    rw [optFiles_foldl_mergeOnePattern, List.append_assoc]
    simp [allFilesOf]

theorem keys_mergeOnePattern (m : List (String × MergeEntry)) (g : PatternGroup) :
    (mergeOnePattern m g).map Prod.fst =
      if g.pattern ∈ m.map Prod.fst then m.map Prod.fst
      else m.map Prod.fst ++ [g.pattern] := by
  induction m with
  | nil => simp [mergeOnePattern]
  | cons ke rest ih =>
    rcases ke with ⟨k, e⟩
    by_cases hk : k = g.pattern
    · simp [mergeOnePattern, hk]
    · have hne : ¬ g.pattern = k := fun h => hk h.symm
      by_cases hmem : g.pattern ∈ rest.map Prod.fst <;>
        simp [mergeOnePattern, hk, hne, hmem, ih]

theorem keys_mergeOnePattern_nodup (m : List (String × MergeEntry))
    (g : PatternGroup) (h : (m.map Prod.fst).Nodup) :
    ((mergeOnePattern m g).map Prod.fst).Nodup := by
  rw [keys_mergeOnePattern]
  split
  · exact h
  · rename_i hmem
    exact List.nodup_append.mpr
      ⟨h, List.nodup_singleton _, List.disjoint_singleton.mpr hmem⟩

theorem keys_foldl_mergeOnePattern_nodup (gs : List PatternGroup) :
    ∀ m : List (String × MergeEntry), (m.map Prod.fst).Nodup →
      (((gs.foldl mergeOnePattern m)).map Prod.fst).Nodup := by
  induction gs with
  | nil => intro m h; exact h
  | cons g gs ih =>
    intro m h
    exact ih _ (keys_mergeOnePattern_nodup m g h)

theorem keys_foldl_mergeStep_nodup (rs : List MergeInput) :
    ∀ st : MergeState, (st.patternsMap.map Prod.fst).Nodup →
      (((rs.foldl mergeStep st).patternsMap).map Prod.fst).Nodup := by
  induction rs with
  | nil => intro st h; exact h
  | cons r rs ih =>
    intro st h
    exact ih _ (keys_foldl_mergeOnePattern_nodup _ _ h)

theorem filesOfGroups_map_of_not_mem (m : List (String × MergeEntry))
    (p : String) (h : p ∉ m.map Prod.fst) :
    filesOfGroups (m.map mkMergedGroup) p = [] := by
  induction m with
  | nil => simp [filesOfGroups]
  | cons ke rest ih =>
    rcases ke with ⟨k, e⟩
    have hk : ¬ k = p := fun hkp => h (by simp [hkp])
    rw [List.map_cons, filesOfGroups_cons]
    simp only [mkMergedGroup, if_neg hk]
    have : p ∉ rest.map Prod.fst := fun hm => h (by simp [hm])
    simp [ih this]

theorem filesOfGroups_map_eq_lookup (m : List (String × MergeEntry))
    (p : String) (h : (m.map Prod.fst).Nodup) :
    filesOfGroups (m.map mkMergedGroup) p = optFiles (lookupEntry p m) := by
  induction m with
  | nil => simp [filesOfGroups, lookupEntry, optFiles]
  | cons ke rest ih =>
    rcases ke with ⟨k, e⟩
    rw [List.map_cons] at h ⊢
    rcases List.pairwise_cons.mp h with ⟨hk, hrest⟩
    rw [filesOfGroups_cons]
    by_cases hkp : k = p
    · subst hkp
      have hnm : k ∉ rest.map Prod.fst := by
        intro hm
        exact (hk k hm) rfl
      simp [mkMergedGroup, lookupEntry, optFiles,
        filesOfGroups_map_of_not_mem rest k hnm]
    · simp [mkMergedGroup, lookupEntry, hkp, ih hrest]

theorem filesOfGroups_perm (ps qs : List PatternGroup) (p : String)
    (h : ps.Perm qs) : (filesOfGroups ps p).Perm (filesOfGroups qs p) :=
  ((h.filter _).map _).flatten

/-- The files under `p` in the merged output, as a multiset, are the
concatenation of the files under `p` across the inputs. -/
theorem filesOf_merge (rs : List MergeInput) (p : String) :
    (filesOfGroups (mergeAnalysisResults rs).patterns p).Perm (allFilesOf rs p) := by
  have hnodup : ((((rs.foldl mergeStep {}).patternsMap)).map Prod.fst).Nodup :=
    keys_foldl_mergeStep_nodup rs {} (by simp [MergeState])
  have h1 : (filesOfGroups (mergeAnalysisResults rs).patterns p).Perm
      (filesOfGroups (((rs.foldl mergeStep {}).patternsMap).map mkMergedGroup) p) := by
    refine filesOfGroups_perm _ _ p ?_
    show (sortByCountDesc _).Perm _
    exact sortByCountDesc_perm _
  rw [filesOfGroups_map_eq_lookup _ p hnodup] at h1
  have h2 := optFiles_foldl_mergeStep rs p {}
  have h3 : optFiles (lookupEntry p (({} : MergeState).patternsMap)) = [] := rfl
  rw [h3] at h2
  rw [h2] at h1
  simpa using h1

theorem hasPattern_iff (ps : List PatternGroup) (p : String) :
    hasPattern ps p = true ↔ ∃ g ∈ ps, g.pattern = p := by
  simp [hasPattern, List.any_eq_true]

theorem mem_keys_mergeOnePattern (m : List (String × MergeEntry))
    (g : PatternGroup) (p : String) :
    p ∈ (mergeOnePattern m g).map Prod.fst ↔
      p ∈ m.map Prod.fst ∨ g.pattern = p := by
  rw [keys_mergeOnePattern]
  split
  · rename_i hmem
    constructor
    · exact fun h => Or.inl h
    · rintro (h | rfl)
      · exact h
      · exact hmem
  · simp [or_comm, eq_comm]

theorem mem_keys_foldl_mergeOnePattern (gs : List PatternGroup) (p : String) :
    ∀ m, p ∈ ((gs.foldl mergeOnePattern m)).map Prod.fst ↔
      p ∈ m.map Prod.fst ∨ ∃ g ∈ gs, g.pattern = p := by
  induction gs with
  | nil => intro m; simp
  | cons g gs ih =>
    intro m
    rw [List.foldl_cons, ih, mem_keys_mergeOnePattern]
    constructor
    · rintro ((h | h) | h)
      · exact Or.inl h
      · exact Or.inr ⟨g, by simp, h⟩
      · rcases h with ⟨g', hg', hp⟩
        exact Or.inr ⟨g', by simp [hg'], hp⟩
    · rintro (h | ⟨g', hg', hp⟩)
      · exact Or.inl (Or.inl h)
      · rcases List.mem_cons.mp hg' with rfl | hg'
        · exact Or.inl (Or.inr hp)
        · exact Or.inr ⟨g', hg', hp⟩

theorem mem_keys_foldl_mergeStep (rs : List MergeInput) (p : String) :
    ∀ st : MergeState,
      p ∈ ((rs.foldl mergeStep st).patternsMap).map Prod.fst ↔
        p ∈ st.patternsMap.map Prod.fst ∨
          ∃ r ∈ rs, ∃ g ∈ r.analysis.patterns, g.pattern = p := by
  induction rs with
  | nil => intro st; simp
  | cons r rs ih =>
    intro st
    rw [List.foldl_cons, ih]
    show (p ∈ ((r.analysis.patterns.foldl mergeOnePattern
      st.patternsMap)).map Prod.fst ∨ _) ↔ _
    rw [mem_keys_foldl_mergeOnePattern]
    constructor
    · rintro ((h | h) | h)
      · exact Or.inl h
      · exact Or.inr ⟨r, by simp, h⟩
      · rcases h with ⟨r', hr', hp⟩
        exact Or.inr ⟨r', by simp [hr'], hp⟩
    · rintro (h | ⟨r', hr', hp⟩)
      · exact Or.inl (Or.inl h)
      · rcases List.mem_cons.mp hr' with rfl | hr'
        · exact Or.inl (Or.inr hp)
        · exact Or.inr ⟨r', hr', hp⟩

/-- Pattern membership in the merged output. -/
theorem hasPattern_merge (rs : List MergeInput) (p : String) :
    hasPattern (mergeAnalysisResults rs).patterns p = true ↔
      ∃ r ∈ rs, ∃ g ∈ r.analysis.patterns, g.pattern = p := by
  rw [hasPattern_iff]
  have hperm : ((mergeAnalysisResults rs).patterns).Perm
      (((rs.foldl mergeStep {}).patternsMap).map mkMergedGroup) :=
    sortByCountDesc_perm _
  constructor
  · rintro ⟨g, hg, hp⟩
    have hg' := hperm.mem_iff.mp hg
    rcases List.mem_map.mp hg' with ⟨e, he, rfl⟩
    have hmem : e.1 ∈ ((rs.foldl mergeStep {}).patternsMap).map Prod.fst :=
      List.mem_map.mpr ⟨e, he, rfl⟩
    have hp' : e.1 = p := hp
    have hpm : p ∈ ((rs.foldl mergeStep {}).patternsMap).map Prod.fst := hp' ▸ hmem
    exact ((mem_keys_foldl_mergeStep rs p {}).mp hpm).resolve_left (by simp [MergeState])
  · intro h
    have : p ∈ ((rs.foldl mergeStep {}).patternsMap).map Prod.fst :=
      (mem_keys_foldl_mergeStep rs p {}).mpr (Or.inr h)
    rcases List.mem_map.mp this with ⟨e, he, hp⟩
    exact ⟨mkMergedGroup e, hperm.mem_iff.mpr (List.mem_map.mpr ⟨e, he, rfl⟩), hp⟩

/-- C8: merging `[A, B, C]` and merging `[A, merge([B, C])]` produce the
same set of pattern strings, and under every pattern string the same
files up to multiset equality. -/
theorem c8_merge_assoc (a b c : MergeInput) (nm p : String) :
    (hasPattern (mergeAnalysisResults [a, b, c]).patterns p =
      hasPattern (mergeAnalysisResults
        [a, reMergeInput nm (mergeAnalysisResults [b, c])]).patterns p) ∧
    ((filesOfGroups (mergeAnalysisResults [a, b, c]).patterns p :
        Multiset ExtractedFileName) =
      (filesOfGroups (mergeAnalysisResults
        [a, reMergeInput nm (mergeAnalysisResults [b, c])]).patterns p :
        Multiset ExtractedFileName)) := by
  constructor
  · rw [Bool.eq_iff_iff, hasPattern_merge, hasPattern_merge]
    constructor
    · rintro ⟨r, hr, hg⟩
      rcases List.mem_cons.mp hr with rfl | hr
      · exact ⟨r, by simp, hg⟩
      · refine ⟨reMergeInput nm (mergeAnalysisResults [b, c]), by simp, ?_⟩
        show ∃ g ∈ (mergeAnalysisResults [b, c]).patterns, g.pattern = p
        rw [← hasPattern_iff, hasPattern_merge]
        rcases List.mem_cons.mp hr with rfl | hr
        · exact ⟨r, by simp, hg⟩
        · rcases List.mem_cons.mp hr with rfl | hr
          · exact ⟨r, by simp, hg⟩
          · simp at hr
    · rintro ⟨r, hr, hg⟩
      rcases List.mem_cons.mp hr with rfl | hr
      · exact ⟨r, by simp, hg⟩
      · rcases List.mem_cons.mp hr with rfl | hr
        · have : ∃ g ∈ (mergeAnalysisResults [b, c]).patterns, g.pattern = p := hg
          rw [← hasPattern_iff, hasPattern_merge] at this
          rcases this with ⟨r', hr', hg'⟩
          rcases List.mem_cons.mp hr' with rfl | hr'
          · exact ⟨r', by simp, hg'⟩
          · rcases List.mem_cons.mp hr' with rfl | hr'
            · exact ⟨r', by simp, hg'⟩
            · simp at hr'
        · simp at hr
  · rw [Multiset.coe_eq_coe]
    refine (filesOf_merge _ p).trans (List.Perm.trans ?_ (filesOf_merge _ p).symm)
    simp only [allFilesOf, List.map_cons, List.map_nil, List.flatten]
    refine List.Perm.append_left _ ?_
    show (filesOfGroups b.analysis.patterns p ++
        (filesOfGroups c.analysis.patterns p ++ [])).Perm
      (filesOfGroups (mergeAnalysisResults [b, c]).patterns p ++ [])
    have hbc := (filesOf_merge [b, c] p).symm
    simp only [allFilesOf, List.map_cons, List.map_nil, List.flatten] at hbc
    simpa using hbc.symm.symm

/-- C8, witness at concrete inputs. -/
theorem c8_witness :
    (hasPattern (mergeAnalysisResults
        [mergeScenarioInputs.headD ⟨"", {totalFound := 0, patterns := [], duplicates := []}⟩,
         mergeScenarioInputs.headD ⟨"", {totalFound := 0, patterns := [], duplicates := []}⟩,
         mergeScenarioInputs.headD ⟨"", {totalFound := 0, patterns := [], duplicates := []}⟩]).patterns
        "A.pdf" =
      hasPattern (mergeAnalysisResults
        [mergeScenarioInputs.headD ⟨"", {totalFound := 0, patterns := [], duplicates := []}⟩,
         reMergeInput "m" (mergeAnalysisResults
          [mergeScenarioInputs.headD ⟨"", {totalFound := 0, patterns := [], duplicates := []}⟩,
           mergeScenarioInputs.headD ⟨"", {totalFound := 0, patterns := [], duplicates := []}⟩])]).patterns
        "A.pdf") :=
  (c8_merge_assoc _ _ _ "m" "A.pdf").1

/-!  Every reported duplicate is a lower-cased name longer than two
characters. -/

theorem char_toNat_ofNat_valid (n : Nat) (h : n.isValidChar) :
    (Char.ofNat n).toNat = n := by
  simp only [Char.ofNat, dif_pos h, Char.ofNatAux, Char.toNat]
  simp [UInt32.toNat]

theorem toLower_idem (c : Char) : c.toLower.toLower = c.toLower := by
  simp only [Char.toLower]
  by_cases h : c.toNat ≥ 65 ∧ c.toNat ≤ 90
  · rw [if_pos h]
    have hv : (c.toNat + 32).isValidChar := Or.inl (by omega)
    have ht : (Char.ofNat (c.toNat + 32)).toNat = c.toNat + 32 :=
      char_toNat_ofNat_valid _ hv
    rw [if_neg]
    rw [ht]
    omega
  · rw [if_neg h, if_neg h]

theorem jsLower_idem (l : List Char) : jsLower (jsLower l) = jsLower l := by
  simp only [jsLower, List.map_map]
  exact List.map_congr_left (fun c _ => toLower_idem c)

theorem bumpCount_keys (k' : String) :
    ∀ (cs : List (String × Nat)) (k : String),
      k' ∈ (bumpCount cs k).map Prod.fst → k' ∈ cs.map Prod.fst ∨ k' = k := by
  intro cs
  induction cs with
  | nil =>
    intro k h
    simp [bumpCount] at h
    exact Or.inr h
  | cons e rest ih =>
    rcases e with ⟨k0, n⟩
    intro k h
    simp only [bumpCount] at h
    by_cases hk : k0 = k
    · rw [if_pos hk] at h
      exact Or.inl (by simpa using h)
    · rw [if_neg hk] at h
      rw [List.map_cons] at h
      rcases List.mem_cons.mp h with h | h
      · exact Or.inl (by simp [h])
      · rcases ih k h with h' | h'
        · exact Or.inl (by simp only [List.map_cons]; exact List.mem_cons_of_mem _ h')
        · exact Or.inr h'

theorem dupStep_keys (cs : List (String × Nat)) (g : List Char)
    (hcs : ∀ k ∈ cs.map Prod.fst, dupKeyGood k) :
    ∀ k ∈ (dupStep cs g).map Prod.fst, dupKeyGood k := by
  intro k hk
  simp only [dupStep] at hk
  split at hk
  · rename_i hlen
    rcases bumpCount_keys k cs _ hk with h | rfl
    · exact hcs k h
    · refine ⟨?_, hlen⟩
      show String.mk (jsLower (jsTrim g)) =
        String.mk (jsLower (String.mk (jsLower (jsTrim g))).data)
      rw [show (String.mk (jsLower (jsTrim g))).data = jsLower (jsTrim g) from rfl,
        jsLower_idem]
  · exact hcs k hk

theorem foldl_dupStep_keys (gs : List (List Char)) :
    ∀ cs, (∀ k ∈ cs.map Prod.fst, dupKeyGood k) →
      ∀ k ∈ ((gs.foldl dupStep cs).map Prod.fst), dupKeyGood k := by
  induction gs with
  | nil => intro cs h; exact h
  | cons g gs ih =>
    intro cs h
    exact ih _ (dupStep_keys cs g h)

/-- C10: every string returned by `findDuplicates` is already
lower-cased (equal to its own lower-casing) and longer than two
characters — the duplicate counter applies the same length filter as the
tokenizer before counting. -/
theorem c10_duplicates_lowercase (text : String) :
    ∀ s ∈ findDuplicates text, s = String.mk (jsLower s.data) ∧ 2 < s.length := by
  intro s hs
  simp only [findDuplicates] at hs
  rcases List.mem_map.mp hs with ⟨p, hp, rfl⟩
  have hkeys := foldl_dupStep_keys
    (scanNames (text.length + 1) text.data true) [] (by simp)
  exact hkeys p.1 (List.mem_map.mpr ⟨p, (List.mem_filter.mp hp).1, rfl⟩)

/-- C10, witness: the comma-separated double occurrence is detected and
satisfies both properties. -/
theorem c10_witness :
    "invoice_001.pdf" ∈ findDuplicates "Invoice_001.pdf,Invoice_001.pdf" ∧
      ("invoice_001.pdf" = String.mk (jsLower "invoice_001.pdf".data) ∧
        2 < "invoice_001.pdf".length) :=
  ⟨by decide, c10_duplicates_lowercase "Invoice_001.pdf,Invoice_001.pdf"
    "invoice_001.pdf" (by decide)⟩

/-!  For input names without `|`, the displayed pattern of every natural
group is the normalized pattern string, which always contains a dot and
therefore never reads `Miscellaneous`. -/

theorem replaceScan_no_bar (m : List Char → Option (List Char × Nat))
    (hm : ∀ l rep n, m l = some (rep, n) → '|' ∉ rep) :
    ∀ (fuel : Nat) (l : List Char), '|' ∉ l → '|' ∉ replaceScan m fuel l := by
  intro fuel
  induction fuel with
  | zero => intro l h; exact h
  | succ fuel ih =>
    intro l h
    cases l with
    | nil => simp [replaceScan]
    | cons c t =>
      simp only [replaceScan]
      cases hml : m (c :: t) with
      | some rn =>
        rcases rn with ⟨rep, n⟩
        intro hmem
        rcases List.mem_append.mp hmem with h1 | h1
        · exact hm _ _ _ hml h1
        · exact ih _ (fun hd => h (List.drop_subset _ _ hd)) h1
      | none =>
        intro hmem
        rcases List.mem_cons.mp hmem with h1 | h1
        · exact h (List.mem_cons.mpr (Or.inl h1))
        · exact ih t (fun ht => h (List.mem_cons_of_mem _ ht)) h1

theorem matchDate1_no_bar : ∀ l rep n, matchDate1 l = some (rep, n) → '|' ∉ rep := by
  intro l rep n h
  simp only [matchDate1] at h
  split at h
  · exact absurd h (by simp)
  · split at h
    · exact absurd h (by simp)
    · cases h; decide

theorem matchDate2_no_bar : ∀ l rep n, matchDate2 l = some (rep, n) → '|' ∉ rep := by
  intro l rep n h
  simp only [matchDate2] at h
  split at h
  · exact absurd h (by simp)
  · split at h
    · exact absurd h (by simp)
    · cases h; decide

theorem matchYear_no_bar : ∀ l rep n, matchYear l = some (rep, n) → '|' ∉ rep := by
  intro l rep n h
  simp only [matchYear] at h
  split at h
  · split at h
    · split at h
      · cases h; decide
      · exact absurd h (by simp)
    · exact absurd h (by simp)
  · exact absurd h (by simp)

theorem matchDigits3_no_bar : ∀ l rep n, matchDigits3 l = some (rep, n) → '|' ∉ rep := by
  intro l rep n h
  simp only [matchDigits3] at h
  split at h
  · cases h; decide
  · exact absurd h (by simp)

theorem matchDigits2_no_bar : ∀ l rep n, matchDigits2 l = some (rep, n) → '|' ∉ rep := by
  intro l rep n h
  simp only [matchDigits2] at h
  split at h
  · cases h; decide
  · exact absurd h (by simp)

theorem matchDigit1_no_bar : ∀ l rep n, matchDigit1 l = some (rep, n) → '|' ∉ rep := by
  intro l rep n h
  simp only [matchDigit1] at h
  split at h
  · split at h
    · cases h; decide
    · exact absurd h (by simp)
  · exact absurd h (by simp)

theorem matchSeqMarker_no_bar : ∀ l rep n, matchSeqMarker l = some (rep, n) → '|' ∉ rep := by
  intro l rep n h
  simp only [matchSeqMarker] at h
  split at h
  · rename_i c1 c2 t
    split at h
    · rename_i hc
      split at h
      · cases h
        rcases hc.1 with rfl | rfl <;> decide
      · split at h
        · cases h
          rcases hc.1 with rfl | rfl <;> decide
        · exact absurd h (by simp)
    · exact absurd h (by simp)
  · exact absurd h (by simp)

theorem matchPlaceholder_no_bar : ∀ u ph, matchPlaceholder u = some ph → '|' ∉ ph := by
  intro u ph h
  simp only [matchPlaceholder] at h
  split at h
  · cases h; decide
  · split at h
    · cases h; decide
    · split at h
      · cases h; decide
      · split at h
        · cases h; decide
        · split at h
          · cases h; decide
          · exact absurd h (by simp)

theorem matchVarAfter_no_bar (c1 : Char) (letters : List Char) :
    ∀ l rep n, matchVarAfter c1 letters l = some (rep, n) →
      c1 ≠ '|' → '|' ∉ rep := by
  intro l rep n h hc1
  cases l with
  | nil => simp [matchVarAfter] at h
  | cons c3 u =>
    simp only [matchVarAfter] at h
    by_cases hc3 : c3 = '-' ∨ c3 = '_'
    · rw [if_pos hc3] at h
      cases hph : matchPlaceholder u with
      | none =>
        rw [hph] at h
        exact absurd h (by simp)
      | some ph =>
        rw [hph] at h
        cases h
        intro hmem
        rcases List.mem_cons.mp hmem with h1 | h1
        · exact hc1 h1.symm
        · rcases List.mem_append.mp h1 with h2 | h2
          · exact absurd h2 (by decide)
          · rcases List.mem_cons.mp h2 with h3 | h3
            · rcases hc3 with hc | hc <;> rw [hc] at h3 <;>
                exact absurd h3 (by decide)
            · exact matchPlaceholder_no_bar u ph hph h3
    · rw [if_neg hc3] at h
      exact absurd h (by simp)

theorem matchVarSegment_no_bar : ∀ l rep n, matchVarSegment l = some (rep, n) → '|' ∉ rep := by
  intro l rep n h
  cases l with
  | nil => simp [matchVarSegment] at h
  | cons c1 t =>
    simp only [matchVarSegment] at h
    by_cases hc1 : c1 = '-' ∨ c1 = '_'
    · rw [if_pos hc1] at h
      by_cases hlen : (t.takeWhile Char.isAlpha).length = 0
      · rw [if_pos hlen] at h
        exact absurd h (by simp)
      · rw [if_neg hlen] at h
        refine matchVarAfter_no_bar c1 _ _ rep n h ?_
        rcases hc1 with hc | hc <;> rw [hc] <;> decide
    · rw [if_neg hc1] at h
      exact absurd h (by simp)

theorem jsReplaceAll_no_bar (m : List Char → Option (List Char × Nat))
    (hm : ∀ l rep n, m l = some (rep, n) → '|' ∉ rep)
    (l : List Char) (h : '|' ∉ l) : '|' ∉ jsReplaceAll m l :=
  replaceScan_no_bar m hm l.length l h

theorem splitChar_ne_nil (sep : Char) : ∀ l : List Char, splitChar sep l ≠ [] := by
  intro l
  cases l with
  | nil => simp [splitChar]
  | cons c t =>
    simp only [splitChar]
    cases splitChar sep t with
    | nil => simp
    | cons s ss => by_cases hc : c = sep <;> simp [hc]

theorem mem_of_mem_splitChar (sep : Char) :
    ∀ (l s : List Char), s ∈ splitChar sep l → ∀ c ∈ s, c ∈ l := by
  intro l
  induction l with
  | nil =>
    intro s hs c hc
    simp [splitChar] at hs
    subst hs
    simp at hc
  | cons c0 t ih =>
    intro s hs c hc
    simp only [splitChar] at hs
    cases hsp : splitChar sep t with
    | nil => exact absurd hsp (splitChar_ne_nil sep t)
    | cons s0 ss =>
      rw [hsp] at hs
      have hs : s ∈ (if c0 = sep then [] :: s0 :: ss else (c0 :: s0) :: ss) := hs
      by_cases hc0 : c0 = sep
      · rw [if_pos hc0] at hs
        rcases List.mem_cons.mp hs with rfl | hs
        · simp at hc
        · exact List.mem_cons_of_mem _ (ih s (hsp ▸ hs) c hc)
      · rw [if_neg hc0] at hs
        rcases List.mem_cons.mp hs with rfl | hs
        · rcases List.mem_cons.mp hc with rfl | hc
          · exact List.mem_cons_self _ _
          · exact List.mem_cons_of_mem _
              (ih s0 (hsp ▸ List.mem_cons_self s0 ss) c hc)
        · exact List.mem_cons_of_mem _
            (ih s (hsp ▸ List.mem_cons_of_mem s0 hs) c hc)

theorem mem_of_mem_joinDot :
    ∀ (segs : List (List Char)) (c : Char), c ∈ joinDot segs →
      c = '.' ∨ ∃ s ∈ segs, c ∈ s := by
  intro segs
  induction segs with
  | nil => intro c hc; simp [joinDot] at hc
  | cons s rest ih =>
    intro c hc
    cases rest with
    | nil =>
      simp only [joinDot] at hc
      exact Or.inr ⟨s, by simp, hc⟩
    | cons u t =>
      simp only [joinDot] at hc
      rcases List.mem_append.mp hc with h | h
      · exact Or.inr ⟨s, by simp, h⟩
      · rcases List.mem_cons.mp h with rfl | h
        · exact Or.inl rfl
        · rcases ih c h with h' | ⟨s', hs', hcs'⟩
          · exact Or.inl h'
          · exact Or.inr ⟨s', List.mem_cons_of_mem _ hs', hcs'⟩

theorem getLastD_mem (l : List (List Char)) (h : l ≠ []) : l.getLastD [] ∈ l := by
  cases l with
  | nil => exact absurd rfl h
  | cons a t =>
    rw [List.getLastD_eq_getLast?, List.getLast?_eq_getLast (a :: t) (by simp)]
    simp

/-- The base name of `identifyPattern`/`extractPrefix` contains no `|`
when the file name does not. -/
theorem baseName_no_bar (name : String) (h : '|' ∉ name.data) :
    '|' ∉ joinDot (splitChar '.' name.data).dropLast := by
  intro hmem
  rcases mem_of_mem_joinDot _ '|' hmem with h' | ⟨s, hs, hcs⟩
  · exact absurd h' (by decide)
  · exact h (mem_of_mem_splitChar '.' name.data s
      (List.dropLast_subset _ hs) '|' hcs)

theorem identifyPattern_no_bar (name : String) (h : '|' ∉ name.data) :
    '|' ∉ (identifyPattern name).data := by
  have hbase := baseName_no_bar name h
  have h1 := jsReplaceAll_no_bar _ matchDate1_no_bar _ hbase
  have h2 := jsReplaceAll_no_bar _ matchDate2_no_bar _ h1
  have h3 := jsReplaceAll_no_bar _ matchYear_no_bar _ h2
  have h4 := jsReplaceAll_no_bar _ matchDigits3_no_bar _ h3
  have h5 := jsReplaceAll_no_bar _ matchDigits2_no_bar _ h4
  have h6 := jsReplaceAll_no_bar _ matchDigit1_no_bar _ h5
  have h7 := jsReplaceAll_no_bar _ matchSeqMarker_no_bar _ h6
  have h8 := jsReplaceAll_no_bar _ matchVarSegment_no_bar _ h7
  intro hmem
  simp only [identifyPattern] at hmem
  rcases List.mem_append.mp hmem with hm | hm
  · exact h8 hm
  · rcases List.mem_cons.mp hm with he | he
    · exact absurd he (by decide)
    · refine h (mem_of_mem_splitChar '.' name.data _ ?_ '|' he)
      exact getLastD_mem _ (splitChar_ne_nil '.' name.data)

theorem identifyPattern_has_dot (name : String) :
    '.' ∈ (identifyPattern name).data := by
  simp only [identifyPattern]
  exact List.mem_append.mpr (Or.inr (List.mem_cons_self _ _))

theorem extractPrefixOf_no_bar (name : String) (h : '|' ∉ name.data) :
    '|' ∉ (extractPrefixOf name).data := by
  have hbase := baseName_no_bar name h
  simp only [extractPrefixOf]
  split
  · intro hm
    exact hbase (List.take_subset _ _ hm)
  · split
    · split
      · intro hm
        exact hbase (List.takeWhile_sublist _ |>.subset hm)
      · split
        · rename_i hs
          intro hm
          rcases List.mem_append.mp hm with hm | hm
          · exact hbase (List.takeWhile_sublist _ |>.subset hm)
          · have h1 := List.mem_singleton.mp hm
            rcases hs with hs | hs <;> rw [hs] at h1 <;> exact absurd h1 (by decide)
        · intro hm
          exact hbase (List.takeWhile_sublist _ |>.subset hm)
    · split
      · intro hm
        exact hbase (List.take_subset _ _ hm)
      · split
        · intro hm
          exact hbase (List.take_subset _ _ hm)
        · split
          · rename_i hs
            intro hm
            rcases List.mem_append.mp hm with hm | hm
            · exact hbase (List.takeWhile_sublist _ |>.subset hm)
            · have h1 := List.mem_singleton.mp hm
              rcases hs with hs | hs <;> rw [hs] at h1 <;> exact absurd h1 (by decide)
          · intro hm
            exact hbase (List.take_subset _ _ hm)

theorem splitChar_no_sep (sep : Char) :
    ∀ l : List Char, sep ∉ l → splitChar sep l = [l] := by
  intro l
  induction l with
  | nil => intro _; rfl
  | cons c t ih =>
    intro h
    have hc : ¬ c = sep := fun hc => h (by simp [hc])
    have ht : sep ∉ t := fun ht => h (List.mem_cons_of_mem _ ht)
    simp only [splitChar, ih ht]
    rw [if_neg hc]

theorem splitChar_append_sep (sep : Char) :
    ∀ (a b : List Char), sep ∉ a →
      splitChar sep (a ++ sep :: b) = a :: splitChar sep b := by
  intro a
  induction a with
  | nil =>
    intro b _
    simp only [List.nil_append, splitChar]
    cases hsp : splitChar sep b with
    | nil => exact absurd hsp (splitChar_ne_nil sep b)
    | cons s ss => simp
  | cons c a ih =>
    intro b h
    have hc : ¬ c = sep := fun hc => h (by simp [hc])
    have ha : sep ∉ a := fun ha => h (List.mem_cons_of_mem _ ha)
    show splitChar sep (c :: (a ++ sep :: b)) = (c :: a) :: splitChar sep b
    simp only [splitChar, ih b ha]
    rw [if_neg hc]

theorem displayPattern_key (pfx pat : String) (h1 : '|' ∉ pfx.data)
    (h2 : '|' ∉ pat.data) (h3 : pat.data ≠ []) :
    displayPattern (pfx ++ "|" ++ pat) = pat := by
  simp only [displayPattern]
  have hbar : ("|" : String).data = ['|'] := by decide
  have hdata : (pfx ++ "|" ++ pat).data = pfx.data ++ '|' :: pat.data := by
    rw [String.data_append, String.data_append, hbar, List.append_assoc]
    rfl
  rw [hdata, splitChar_append_sep _ _ _ h1, splitChar_no_sep _ _ h2]
  simp only [List.getD_cons_succ, List.getD_cons_zero]
  rw [if_neg h3]

theorem insertIntoFirst_keys {p : String → Bool} {f : ExtractedFileName}
    {m m' : List (String × List ExtractedFileName)}
    (h : insertIntoFirst p f m = some m') :
    m'.map Prod.fst = m.map Prod.fst := by
  induction m generalizing m' with
  | nil => simp [insertIntoFirst] at h
  | cons e rest ih =>
    rcases e with ⟨k, fs⟩
    simp only [insertIntoFirst] at h
    split at h
    · cases h
      rfl
    · rcases Option.map_eq_some'.mp h with ⟨m'', h1, rfl⟩
      simp [ih h1]

theorem clusterStep_keys (m : List (String × List ExtractedFileName))
    (f : ExtractedFileName) :
    ∀ k ∈ (clusterStep m f).map Prod.fst, k ∈ m.map Prod.fst ∨
      k = extractPrefixOf f.name ++ "|" ++ identifyPattern f.name := by
  intro k hk
  simp only [clusterStep] at hk
  cases hins : insertIntoFirst
      (keyMatches (extractPrefixOf f.name) (identifyPattern f.name)) f m with
  | some m' =>
    rw [hins] at hk
    rw [insertIntoFirst_keys hins] at hk
    exact Or.inl hk
  | none =>
    rw [hins] at hk
    rw [List.map_append] at hk
    rcases List.mem_append.mp hk with hk | hk
    · exact Or.inl hk
    · simp at hk
      exact Or.inr hk

theorem foldl_clusterStep_keys (fns : List ExtractedFileName) :
    ∀ m, ∀ k ∈ ((fns.foldl clusterStep m).map Prod.fst),
      k ∈ m.map Prod.fst ∨
        ∃ f ∈ fns, k = extractPrefixOf f.name ++ "|" ++ identifyPattern f.name := by
  induction fns with
  | nil =>
    intro m k hk
    exact Or.inl hk
  | cons f fns ih =>
    intro m k hk
    rw [List.foldl_cons] at hk
    rcases ih (clusterStep m f) k hk with h | ⟨f', hf', hk'⟩
    · rcases clusterStep_keys m f k h with h' | h'
      · exact Or.inl h'
      · exact Or.inr ⟨f, by simp, h'⟩
    · exact Or.inr ⟨f', List.mem_cons_of_mem _ hf', hk'⟩

/-- For `|`-free input names, no natural (pre-demotion) group displays
the pattern `Miscellaneous`: the display pattern is the normalized
pattern string, which contains a dot. -/
theorem groupByPatternRaw_pattern (fns : List ExtractedFileName)
    (hbar : ∀ f ∈ fns, '|' ∉ f.name.data) :
    ∀ g ∈ groupByPatternRaw fns, g.pattern ≠ "Miscellaneous" := by
  intro g hg
  simp only [groupByPatternRaw] at hg
  rcases List.mem_map.mp ((sortByCountDesc_perm _).mem_iff.mp hg) with ⟨e, he, rfl⟩
  have hkey : e.1 ∈ ((fns.foldl clusterStep []).map Prod.fst) :=
    List.mem_map.mpr ⟨e, he, rfl⟩
  rcases foldl_clusterStep_keys fns [] e.1 hkey with h | ⟨f, hf, hk⟩
  · simp at h
  · show displayPattern e.1 ≠ "Miscellaneous"
    rw [hk, displayPattern_key _ _ (extractPrefixOf_no_bar _ (hbar f hf))
      (identifyPattern_no_bar _ (hbar f hf))
      (fun hnil => by simpa [hnil] using identifyPattern_has_dot f.name)]
    intro heq
    have hdot := identifyPattern_has_dot f.name
    rw [heq] at hdot
    exact absurd hdot (by decide)

/-- C5, amended: for every input list of ExtractedNames whose names do
not contain the character `|`: no group other than `Miscellaneous` has
count 1; when singleton groups exist, the output is the non-singleton
groups followed by one shared `Miscellaneous` group holding exactly the
singleton groups' files; and when no singleton group exists, no group
named `Miscellaneous` occurs in the output. -/
theorem c5_amended (fns : List ExtractedFileName)
    (hbar : ∀ f ∈ fns, '|' ∉ f.name.data) :
    (∀ g ∈ groupByPattern fns, g.pattern ≠ "Miscellaneous" → g.count ≠ 1) ∧
    ((groupByPatternRaw fns).filter (fun g => g.count == 1) ≠ [] →
      groupByPattern fns =
        ((groupByPatternRaw fns).filter (fun g => g.count != 1)) ++
          [{ pattern := "Miscellaneous"
             files := (((groupByPatternRaw fns).filter
               (fun g => g.count == 1)).map (fun g => g.files)).flatten
             count := ((((groupByPatternRaw fns).filter
               (fun g => g.count == 1)).map (fun g => g.files)).flatten).length }]) ∧
    ((groupByPatternRaw fns).filter (fun g => g.count == 1) = [] →
      ∀ g ∈ groupByPattern fns, g.pattern ≠ "Miscellaneous") := by
  refine ⟨?_, ?_, ?_⟩
  · intro g hg hname
    simp only [groupByPattern] at hg
    split at hg
    · have := (List.mem_filter.mp hg).2
      simpa using this
    · rcases List.mem_append.mp hg with hg | hg
      · have := (List.mem_filter.mp hg).2
        simpa using this
      · rcases List.mem_singleton.mp hg with rfl
        exact absurd rfl hname
  · intro hne
    have hflat : ¬ ((((groupByPatternRaw fns).filter (fun g => g.count == 1)).map
        (fun g => g.files)).flatten) = [] :=
      fun hf => hne (singleton_filter_nil_of_flatten_nil fns hf)
    simp only [groupByPattern]
    rw [if_neg (by simpa [List.isEmpty_iff] using hflat)]
  · intro hnil g hg
    simp only [groupByPattern] at hg
    have hflat : ((((groupByPatternRaw fns).filter (fun g => g.count == 1)).map
        (fun g => g.files)).flatten) = [] := by
      rw [hnil]
      rfl
    rw [if_pos (by simpa [List.isEmpty_iff] using hflat)] at hg
    exact groupByPatternRaw_pattern fns hbar g (List.mem_filter.mp hg).1

/-- C5, witness for the amended theorem: a lone `readme.txt` is demoted
into a `Miscellaneous` group. -/
theorem c5_witness :
    (∀ g ∈ groupByPattern [miscFile1], g.pattern ≠ "Miscellaneous" → g.count ≠ 1) ∧
    ((groupByPatternRaw [miscFile1]).filter (fun g => g.count == 1) ≠ [] →
      groupByPattern [miscFile1] =
        ((groupByPatternRaw [miscFile1]).filter (fun g => g.count != 1)) ++
          [{ pattern := "Miscellaneous"
             files := (((groupByPatternRaw [miscFile1]).filter
               (fun g => g.count == 1)).map (fun g => g.files)).flatten
             count := ((((groupByPatternRaw [miscFile1]).filter
               (fun g => g.count == 1)).map (fun g => g.files)).flatten).length }]) ∧
    ((groupByPatternRaw [miscFile1]).filter (fun g => g.count == 1) = [] →
      ∀ g ∈ groupByPattern [miscFile1], g.pattern ≠ "Miscellaneous") :=
  c5_amended [miscFile1] (by decide)

end Scrapper
